import Mathlib

/-!
Verification of the heading-collapse / bubble-menu / node-action interaction
layer of the `ananasTete/lexical-editor` repository.

The relevant source is shallowly embedded:
* `HeadingCollapsePlugin.tsx` — `reapplyAllCollapses`, `hideElement`,
  `tryRestoreElements`, the update-listener and the toggle command handler;
* `CollapsedStateNode.ts` — the persisted collapsed-key record (`getKeys`,
  `toggle`, `$getCollapsedStateNode`) together with a small heap model for
  the aliasing behaviour of the JavaScript `Set` objects involved;
* `SelectionBubbleMenuPlugin.tsx` — `syncToolbarState`, the `open`
  condition and the `onDelete` handler;
* `NodeActionIconPlugin` (the variant holding `selectNode`) — node
  activation behaviour.

DOM elements are modelled by the fields the code reads and writes
(`style.display`, the `data-orig-display` marker, and the document node the
element resolves to); the document tree is modelled by a forest of keyed
nodes.  All definitions are executable.
-/

namespace LexEd

/-! ## Heading collapse: data model

A top-level child of the editor root, as seen by `reapplyAllCollapses`.
`node` is the result of `$getNearestNodeFromDOMNode` followed by
`getTopLevelElementOrThrow` (`none` when no document node resolves);
a heading node carries the numeric level parsed from its `h1`…`h6` tag.
`display` is the inline `style.display` value and `origDisplay` the optional
`data-orig-display` dataset marker. -/

inductive NodeInfo where
  | heading (key : String) (level : Nat)
  | other (key : String)
deriving DecidableEq, Repr

structure DomChild where
  node : Option NodeInfo
  display : String
  origDisplay : Option String
deriving DecidableEq, Repr

/-- Source `hideElement` (HeadingCollapsePlugin.tsx:250-255): record the original
display value in the dataset marker unless one is already present, then set
`display` to `"none"`.  (`el.style.display || ''` equals the stored display
string, the empty string mapping to itself.) -/
def hideElement (c : DomChild) : DomChild :=
  { c with
    origDisplay := some (c.origDisplay.getD c.display),
    display := "none" }

/-- One element of `tryRestoreElements`: if the marker is present, restore
`display` from it and delete the marker. -/
def restoreChild (c : DomChild) : DomChild :=
  match c.origDisplay with
  | some d => { c with display := d, origDisplay := none }
  | none => c

/-- Source `tryRestoreElements` (HeadingCollapsePlugin.tsx:257-266): restore every
direct child of the root carrying the marker. -/
def tryRestoreElements (children : List DomChild) : List DomChild :=
  children.map restoreChild

/-- The inner-loop break condition of `reapplyAllCollapses`: the sibling
resolves to a document node whose top-level element is a heading of level
`≤ level`. -/
def isBoundary (level : Nat) (c : DomChild) : Bool :=
  match c.node with
  | some (NodeInfo.heading _ l) => l ≤ level
  | _ => false

/-- Inner loop of `reapplyAllCollapses` (lines 222-234): starting at index
`j`, collect the indices of subsequent siblings until the first sibling
satisfying `isBoundary` (exclusive) or the end of the children. -/
def hideRunAux (level : Nat) : Nat → List DomChild → List Nat
  | _, [] => []
  | j, c :: rest =>
    if isBoundary level c then []
    else j :: hideRunAux level (j + 1) rest

/-- Outer loop of `reapplyAllCollapses` (lines 208-236): walk the children in
document order; for every child resolving to a heading whose key is in the
collapsed set, record the key as valid and collect the hide run of its
following siblings.  Returns (`toHide` as a list of indices, the list of
valid collapsed keys). -/
def outerScan (ck : Finset String) : Nat → List DomChild → List Nat × List String
  | _, [] => ([], [])
  | i, c :: rest =>
    let t := outerScan ck (i + 1) rest
    match c.node with
    | some (NodeInfo.heading key level) =>
      if key ∈ ck then (hideRunAux level (i + 1) rest ++ t.1, key :: t.2)
      else t
    | _ => t

/-- Apply `hideElement` to every child whose index is in `toHide`
(lines 245-247), walking the children with their indices. -/
def applyHides (toHide : List Nat) : Nat → List DomChild → List DomChild
  | _, [] => []
  | j, c :: rest =>
    (if j ∈ toHide then hideElement c else c) :: applyHides toHide (j + 1) rest

/-- Does this child resolve to a top-level heading with key `k`? -/
def isHeadingWithKey (k : String) (c : DomChild) : Bool :=
  match c.node with
  | some (NodeInfo.heading key _) => key == k
  | _ => false

/-- Does some child of the list resolve to a top-level heading with key `k`? -/
def isHeadingKeyIn (children : List DomChild) (k : String) : Bool :=
  children.any (isHeadingWithKey k)

/-- Source `reapplyAllCollapses` (HeadingCollapsePlugin.tsx:193-248): restore all
previously hidden children, scan for collapsed headings and their section
bodies, prune the given collapsed-key set down to the keys seen as valid
headings during the walk, and hide the collected siblings.  Returns the new
children and the pruned key set.  (The source mutates the passed `Set` in
place; here the pruned set is returned.) -/
def reapplyAllCollapses (children : List DomChild) (collapsedKeys : Finset String) :
    List DomChild × Finset String :=
  let restored := tryRestoreElements children
  let scan := outerScan collapsedKeys 0 restored
  let pruned := collapsedKeys.filter (fun k => k ∈ scan.2)
  (applyHides scan.1 0 restored, pruned)

/-- Section-body length starting right after a collapsed heading: the number
of consecutive non-boundary siblings. -/
def sectionRunLen (level : Nat) (l : List DomChild) : Nat :=
  (l.takeWhile (fun c => !isBoundary level c)).length

/-- The run of indices hidden on behalf of the heading at index `i` with
level `level`. -/
def hideRun (children : List DomChild) (i level : Nat) : List Nat :=
  hideRunAux level (i + 1) (children.drop (i + 1))

/-- One past the last index hidden on behalf of the heading at index `i`:
the index of the first later sibling that is a heading of level `≤ level`,
or the number of children when there is none. -/
def sectionEnd (children : List DomChild) (i level : Nat) : Nat :=
  (i + 1) + sectionRunLen level (children.drop (i + 1))

/-! ## Heading collapse: plugin state

`stateNode` is the `__keys` set of the persisted `CollapsedStateNode` when
one exists; `cache` is `collapsedHeadingKeysRef.current`; `children` the
top-level DOM children. -/

structure PluginState where
  stateNode : Option (Finset String)
  cache : Finset String
  children : List DomChild
deriving DecidableEq

/-- Source `stateNode ? stateNode.getKeys() : new Set()` — the key set read from the
record, or the empty set when no record exists.  (`getKeys` returns a fresh
copy; the copy's contents equal `__keys`.) -/
def getKeysOrEmpty (st : Option (Finset String)) : Finset String := st.getD ∅

/-- Source `CollapsedStateNode.toggle` (CollapsedStateNode.ts:86-93): delete the key
if present, insert it otherwise. -/
def toggleKey (keys : Finset String) (k : String) : Finset String :=
  if k ∈ keys then keys.erase k else insert k keys

/-- The update-listener body (HeadingCollapsePlugin.tsx:105-114): read the
record's keys into the cache (a fresh copy), then run the re-apply pass,
which prunes the cached copy in place.  The persisted record itself is not
written. -/
def updateListenerStep (st : PluginState) : PluginState :=
  let keys := getKeysOrEmpty st.stateNode
  let r := reapplyAllCollapses st.children keys
  { stateNode := st.stateNode, cache := r.2, children := r.1 }

/-- The `TOGGLE_HEADING_COLLAPSE_COMMAND` handler
(HeadingCollapsePlugin.tsx:270-299): inside the update, get or lazily create
the record and toggle the key; then read the keys back into the cache and
run the re-apply pass on the cached copy. -/
def toggleCommandStep (st : PluginState) (key : String) : PluginState :=
  let nk := toggleKey (getKeysOrEmpty st.stateNode) key
  let r := reapplyAllCollapses st.children nk
  { stateNode := some nk, cache := r.2, children := r.1 }

/-! ## A heap of JavaScript `Set` objects

`CollapsedStateNode.getKeys` returns `new Set(this.getLatest().__keys)`.
To state the aliasing property (the returned set is a fresh object, so
mutating it cannot change `__keys`) the `Set` objects are modelled as cells
of a small heap addressed by allocation index. -/

structure SetHeap where
  cells : List (Finset String)
deriving DecidableEq

def readCell (h : SetHeap) (a : Nat) : Finset String := (h.cells[a]?).getD ∅

def writeCell (h : SetHeap) (a : Nat) (s : Finset String) : SetHeap :=
  ⟨h.cells.set a s⟩

def allocCell (h : SetHeap) (s : Finset String) : SetHeap × Nat :=
  (⟨h.cells ++ [s]⟩, h.cells.length)

/-- Source `CollapsedStateNode.getKeys` (CollapsedStateNode.ts:77-79): allocate a
fresh `Set` holding a copy of the contents of the `__keys` cell at
`keysAddr`, returning the new heap and the fresh address. -/
def getKeys (h : SetHeap) (keysAddr : Nat) : SetHeap × Nat :=
  allocCell h (readCell h keysAddr)

/-! ## Root children for the singleton-record invariant

For the lazily-created-record invariant only the distinction between the
`collapsed-state` record and any other root child matters. -/

inductive RootNode where
  | record (keys : Finset String)
  | other (id : Nat)
deriving DecidableEq

def isRecord : RootNode → Bool
  | RootNode.record _ => true
  | RootNode.other _ => false

def countRecords (doc : List RootNode) : Nat := (doc.filter isRecord).length

/-- The toggle-command update (HeadingCollapsePlugin.tsx:277-285):
`$getCollapsedStateNode` returns the first root child of type
`collapsed-state`; when none exists a fresh empty record is appended to the
root; afterwards `toggle(key)` runs on it. -/
def toggleRecordCommand : List RootNode → String → List RootNode
  | [], key => [RootNode.record (toggleKey ∅ key)]
  | RootNode.record ks :: rest, key => RootNode.record (toggleKey ks key) :: rest
  | c :: rest, key => c :: toggleRecordCommand rest key

def runToggles (doc : List RootNode) (keys : List String) : List RootNode :=
  keys.foldl toggleRecordCommand doc

/-! ## Selection bubble menu: toolbar-state sync -/

structure DomRect where
  width : Nat
  height : Nat
deriving DecidableEq

/-- The current editor selection as consumed by `syncToolbarState`:
whether it is a range selection, whether it is collapsed, and the bounding
rectangle of the corresponding platform selection range (when one exists). -/
structure SelectionInfo where
  isRange : Bool
  isCollapsed : Bool
  domRect : Option DomRect
deriving DecidableEq

structure SyncInput where
  isComposing : Bool
  selection : Option SelectionInfo
deriving DecidableEq

/-- Source `syncToolbarState` (SelectionBubbleMenuPlugin.tsx:77-138) reduced to its
rectangle result: during IME composition the rectangle is cleared; with no
selection, a non-range selection or a collapsed selection the rectangle is
cleared; otherwise the platform range rectangle is used unless it has zero
width and height.  The returned value is also stored into `selectionRect`. -/
def syncToolbarState (inp : SyncInput) : Option DomRect :=
  if inp.isComposing then none
  else
    match inp.selection with
    | some s =>
      if s.isRange && !s.isCollapsed then
        match s.domRect with
        | some r => if r.width != 0 || r.height != 0 then some r else none
        | none => none
      else none
    | none => none

/-- After a qualifying event the handlers run `setShouldShow(!!r)` with `r`
the result of `syncToolbarState` (lines 154-157, 164-167, 186-190). -/
def shouldShowAfterSync (inp : SyncInput) : Bool := (syncToolbarState inp).isSome

def selectionRectAfterSync (inp : SyncInput) : Option DomRect := syncToolbarState inp

/-- The menu's open condition (lines 203-206): `shouldShow && !!selectionRect`. -/
def openAfterSync (inp : SyncInput) : Bool :=
  shouldShowAfterSync inp && (selectionRectAfterSync inp).isSome

/-! ## The document forest

Used by the bubble-menu delete handler and the node-action activation.
A node is a text node (key, content) or an element node (key, kind tag,
children); the document is the list of top-level nodes under the root. -/

inductive DocNode where
  | text (key : String) (content : String)
  | elem (key : String) (kind : String) (children : List DocNode)

def nodeKey : DocNode → String
  | DocNode.text k _ => k
  | DocNode.elem k _ _ => k

def isElem : DocNode → Bool
  | DocNode.text _ _ => false
  | DocNode.elem _ _ _ => true

mutual
/-- Does the subtree rooted at this node contain a node with key `q`? -/
def containsKey : DocNode → String → Bool
  | DocNode.text k _, q => k == q
  | DocNode.elem k _ cs, q => k == q || containsKeyList cs q

def containsKeyList : List DocNode → String → Bool
  | [], _ => false
  | c :: cs, q => containsKey c q || containsKeyList cs q
end

mutual
/-- All keys of a subtree, the node's own key first. -/
def allKeys : DocNode → List String
  | DocNode.text k _ => [k]
  | DocNode.elem k _ cs => k :: allKeysList cs

def allKeysList : List DocNode → List String
  | [] => []
  | c :: cs => allKeys c ++ allKeysList cs
end

/-- Source `getTopLevelElementOrThrow` as seen from the root: the first top-level
node whose subtree contains `q`. -/
def topLevelOf (doc : List DocNode) (q : String) : Option DocNode :=
  doc.find? (fun b => containsKey b q)

mutual
/-- Source `getAllTextNodes`: the text descendants of a node in document order,
as (key, content) pairs. -/
def allTextNodes : DocNode → List (String × String)
  | DocNode.text k s => [(k, s)]
  | DocNode.elem _ _ cs => allTextNodesList cs

def allTextNodesList : List DocNode → List (String × String)
  | [] => []
  | c :: cs => allTextNodes c ++ allTextNodesList cs
end

mutual
/-- Source `$getNodeByKey` over the forest. -/
def findByKey : DocNode → String → Option DocNode
  | DocNode.text k s, q => if k == q then some (DocNode.text k s) else none
  | DocNode.elem k t cs, q =>
    if k == q then some (DocNode.elem k t cs) else findByKeyList cs q

def findByKeyList : List DocNode → String → Option DocNode
  | [], _ => none
  | c :: cs, q =>
    match findByKey c q with
    | some n => some n
    | none => findByKeyList cs q
end

/-- The loop of `onDelete` over `selection.getNodes()`: resolve each selected
node's top-level element (`getTopLevelElementOrThrow` throwing — aborting
the update — is modelled by `none`) and collect the top-level keys. -/
def resolveTops (doc : List DocNode) : List String → Option (List String)
  | [] => some []
  | q :: qs =>
    match topLevelOf doc q with
    | none => none
    | some b =>
      match resolveTops doc qs with
      | none => none
      | some rest => some (nodeKey b :: rest)

/-- The bubble-menu delete handler `onDelete`
(SelectionBubbleMenuPlugin.tsx:310-336).  Inputs: the selected node keys (in
document order, as produced by `selection.getNodes()`) and the anchor node's
key.  Every selected node's top-level element is resolved and the distinct
top-level nodes are removed from the root.  When no node resolves at all,
the anchor's top-level element is removed instead.  Keys of top-level nodes
are unique in a Lexical document, so removal of the collected (key-deduped)
nodes is expressed as filtering the root children by key. -/
def onDelete (doc : List DocNode) (selectedKeys : List String) (anchorKey : String) :
    Option (List DocNode) :=
  match resolveTops doc selectedKeys with
  | none => none
  | some tops =>
    if tops.isEmpty then
      match topLevelOf doc anchorKey with
      | none => none
      | some b => some (doc.filter (fun x => nodeKey x != nodeKey b))
    else
      some (doc.filter (fun b => !(tops.contains (nodeKey b))))

/-! ## Node action activation -/

inductive SelectionOutcome where
  | textRange (startKey : String) (startOffset : Nat) (endKey : String) (endOffset : Nat)
  | nodeSelection (key : String)
deriving DecidableEq

structure SelectNodeResult where
  focused : Bool
  outcome : Option SelectionOutcome
deriving DecidableEq

/-- Source `selectNode` (src/unnamed/part_000:161-184): `theEditor.focus()` runs
first; inside the update, the node is looked up by key (returning with no
selection change when absent) and its top-level element is taken; when that
element is an element node with text descendants, a range selection from
offset `0` of the first text node to the content size of the last is set;
otherwise a node selection holding the top-level element is set. -/
def selectNode (doc : List DocNode) (key : String) : SelectNodeResult :=
  match findByKeyList doc key with
  | none => ⟨true, none⟩
  | some _ =>
    match topLevelOf doc key with
    | none => ⟨true, none⟩
    | some top =>
      if isElem top then
        let texts := allTextNodes top
        match texts.head?, texts.getLast? with
        | some s, some e => ⟨true, some (SelectionOutcome.textRange s.1 0 e.1 e.2.length)⟩
        | _, _ => ⟨true, some (SelectionOutcome.nodeSelection (nodeKey top))⟩
      else ⟨true, some (SelectionOutcome.nodeSelection (nodeKey top))⟩

/-! ## Concrete documents used by counterexamples and witnesses -/

/-- A three-item unordered list: `ul#L [li#i1 [t1], li#i2 [t2], li#i3 [t3]]`. -/
def exListDoc : DocNode :=
  DocNode.elem ("L") ("list")
    [DocNode.elem ("i1") ("listitem") [DocNode.text ("t1") ("alpha")],
     DocNode.elem ("i2") ("listitem") [DocNode.text ("t2") ("beta")],
     DocNode.elem ("i3") ("listitem") [DocNode.text ("t3") ("gamma")]]

/-- A plugin state whose persisted record holds the key `"k1"` while the
document has no heading at all (only a paragraph). -/
def c1State : PluginState :=
  ⟨some {"k1"}, ∅, [⟨some (NodeInfo.other ("p")), "", none⟩]⟩

/-- Five top-level children: `h2#A, p#B, h3#C, p#D, h2#E`. -/
def c3Children : List DomChild :=
  [⟨some (NodeInfo.heading ("A") 2), "", none⟩,
   ⟨some (NodeInfo.other ("B")), "", none⟩,
   ⟨some (NodeInfo.heading ("C") 3), "", none⟩,
   ⟨some (NodeInfo.other ("D")), "", none⟩,
   ⟨some (NodeInfo.heading ("E") 2), "", none⟩]

/-- A steady plugin state: empty collapsed record, one heading and one
paragraph, nothing hidden. -/
def c5State : PluginState :=
  ⟨some ∅, ∅,
   [⟨some (NodeInfo.heading ("h1") 2), "", none⟩,
    ⟨some (NodeInfo.other ("p")), "", none⟩]⟩

/-- Two paragraphs, each with one text node. -/
def c2Doc : List DocNode :=
  [DocNode.elem ("p1") ("paragraph") [DocNode.text ("t1") ("one")],
   DocNode.elem ("p2") ("paragraph") [DocNode.text ("t2") ("two")]]

/-! ## Basic facts about hide / restore -/

lemma restoreChild_origDisplay (c : DomChild) : (restoreChild c).origDisplay = none := by
  obtain ⟨n, d, o⟩ := c
  cases o <;> rfl

lemma restoreChild_of_none {c : DomChild} (h : c.origDisplay = none) : restoreChild c = c := by
  obtain ⟨n, d, o⟩ := c
  cases o with
  | none => rfl
  | some _ => cases h

lemma restoreChild_node (c : DomChild) : (restoreChild c).node = c.node := by
  obtain ⟨n, d, o⟩ := c
  cases o <;> rfl

lemma restore_hide {c : DomChild} (h : c.origDisplay = none) :
    restoreChild (hideElement c) = c := by
  obtain ⟨n, d, o⟩ := c
  cases o with
  | none => rfl
  | some _ => cases h

lemma tryRestoreElements_origDisplay (l : List DomChild) :
    ∀ c ∈ tryRestoreElements l, c.origDisplay = none := by
  intro c hc
  simp only [tryRestoreElements, List.mem_map] at hc
  obtain ⟨x, _, rfl⟩ := hc
  exact restoreChild_origDisplay x

lemma applyHides_restore (th : List Nat) :
    ∀ (n : Nat) (l : List DomChild), (∀ c ∈ l, c.origDisplay = none) →
      tryRestoreElements (applyHides th n l) = l := by
  intro n l
  induction l generalizing n with
  | nil => intro _; rfl
  | cons c rest ih =>
    intro h
    have hc : c.origDisplay = none := h c (List.mem_cons_self _ _)
    have hrest : ∀ x ∈ rest, x.origDisplay = none :=
      fun x hx => h x (List.mem_cons_of_mem _ hx)
    show restoreChild (if n ∈ th then hideElement c else c) ::
        tryRestoreElements (applyHides th (n + 1) rest) = c :: rest
    rw [ih (n + 1) hrest]
    by_cases hn : n ∈ th
    · rw [if_pos hn, restore_hide hc]
    · rw [if_neg hn, restoreChild_of_none hc]

lemma reapply_fst (ch : List DomChild) (ck : Finset String) :
    (reapplyAllCollapses ch ck).1 =
      applyHides (outerScan ck 0 (tryRestoreElements ch)).1 0 (tryRestoreElements ch) := rfl

lemma reapply_snd_def (ch : List DomChild) (ck : Finset String) :
    (reapplyAllCollapses ch ck).2 =
      ck.filter (fun k => k ∈ (outerScan ck 0 (tryRestoreElements ch)).2) := rfl

lemma tryRestore_reapply (ch : List DomChild) (ck : Finset String) :
    tryRestoreElements ((reapplyAllCollapses ch ck).1) = tryRestoreElements ch :=
  applyHides_restore _ 0 _ (tryRestoreElements_origDisplay ch)

/-! ## The outer scan -/

lemma outerScan_cons_heading {c : DomChild} {key : String} {level : Nat}
    (ck : Finset String) (i : Nat) (rest : List DomChild)
    (hn : c.node = some (NodeInfo.heading key level)) :
    outerScan ck i (c :: rest) =
      if key ∈ ck then
        (hideRunAux level (i + 1) rest ++ (outerScan ck (i + 1) rest).1,
         key :: (outerScan ck (i + 1) rest).2)
      else outerScan ck (i + 1) rest := by
  obtain ⟨n, d, o⟩ := c
  cases hn
  rfl

lemma outerScan_cons_none {c : DomChild} (ck : Finset String) (i : Nat)
    (rest : List DomChild) (hn : c.node = none) :
    outerScan ck i (c :: rest) = outerScan ck (i + 1) rest := by
  obtain ⟨n, d, o⟩ := c
  cases hn
  rfl

lemma outerScan_cons_other {c : DomChild} {k : String} (ck : Finset String) (i : Nat)
    (rest : List DomChild) (hn : c.node = some (NodeInfo.other k)) :
    outerScan ck i (c :: rest) = outerScan ck (i + 1) rest := by
  obtain ⟨n, d, o⟩ := c
  cases hn
  rfl

lemma outerScan_congr {ck ck' : Finset String} :
    ∀ (i : Nat) (l : List DomChild),
      (∀ c ∈ l, ∀ k lvl, c.node = some (NodeInfo.heading k lvl) → (k ∈ ck ↔ k ∈ ck')) →
      outerScan ck i l = outerScan ck' i l := by
  intro i l
  induction l generalizing i with
  | nil => intro _; rfl
  | cons c rest ih =>
    intro h
    have hrest : ∀ c' ∈ rest, ∀ k lvl,
        c'.node = some (NodeInfo.heading k lvl) → (k ∈ ck ↔ k ∈ ck') :=
      fun c' hc' => h c' (List.mem_cons_of_mem _ hc')
    cases hn : c.node with
    | none => rw [outerScan_cons_none ck i rest hn, outerScan_cons_none ck' i rest hn,
        ih (i + 1) hrest]
    | some ni =>
      cases ni with
      | other k => rw [outerScan_cons_other ck i rest hn, outerScan_cons_other ck' i rest hn,
          ih (i + 1) hrest]
      | heading k lvl =>
        rw [outerScan_cons_heading ck i rest hn, outerScan_cons_heading ck' i rest hn,
          ih (i + 1) hrest]
        have hiff := h c (List.mem_cons_self _ _) k lvl hn
        by_cases hk : k ∈ ck
        · rw [if_pos hk, if_pos (hiff.mp hk)]
        · rw [if_neg hk, if_neg (fun hh => hk (hiff.mpr hh))]

lemma mem_valid_of_heading {ck : Finset String} {k : String} {lvl : Nat} :
    ∀ (i : Nat) (l : List DomChild) (c : DomChild), c ∈ l →
      c.node = some (NodeInfo.heading k lvl) → k ∈ ck → k ∈ (outerScan ck i l).2 := by
  intro i l
  induction l generalizing i with
  | nil => intro c hc; cases hc
  | cons d rest ih =>
    intro c hc hn hk
    rcases List.mem_cons.mp hc with rfl | hmem
    · rw [outerScan_cons_heading ck i rest hn, if_pos hk]
      exact List.mem_cons_self _ _
    · cases hd : d.node with
      | none =>
        rw [outerScan_cons_none ck i rest hd]
        exact ih (i + 1) c hmem hn hk
      | some ni =>
        cases ni with
        | other _ =>
          rw [outerScan_cons_other ck i rest hd]
          exact ih (i + 1) c hmem hn hk
        | heading k2 l2 =>
          rw [outerScan_cons_heading ck i rest hd]
          by_cases hk2 : k2 ∈ ck
          · rw [if_pos hk2]
            exact List.mem_cons_of_mem _ (ih (i + 1) c hmem hn hk)
          · rw [if_neg hk2]
            exact ih (i + 1) c hmem hn hk

lemma mem_valid_iff {ck : Finset String} {k : String} :
    ∀ (i : Nat) (l : List DomChild),
      k ∈ (outerScan ck i l).2 ↔
        k ∈ ck ∧ ∃ c ∈ l, ∃ lvl, c.node = some (NodeInfo.heading k lvl) := by
  intro i l
  induction l generalizing i with
  | nil => simp [outerScan]
  | cons d rest ih =>
    cases hd : d.node with
    | none =>
      rw [outerScan_cons_none ck i rest hd, ih (i + 1)]
      simp only [List.mem_cons]
      constructor
      · rintro ⟨hk, c, hc, lvl, hn⟩; exact ⟨hk, c, Or.inr hc, lvl, hn⟩
      · rintro ⟨hk, c, rfl | hc, lvl, hn⟩
        · rw [hd] at hn; cases hn
        · exact ⟨hk, c, hc, lvl, hn⟩
    | some ni =>
      cases ni with
      | other k2 =>
        rw [outerScan_cons_other ck i rest hd, ih (i + 1)]
        simp only [List.mem_cons]
        constructor
        · rintro ⟨hk, c, hc, lvl, hn⟩; exact ⟨hk, c, Or.inr hc, lvl, hn⟩
        · rintro ⟨hk, c, rfl | hc, lvl, hn⟩
          · rw [hd] at hn; cases hn
          · exact ⟨hk, c, hc, lvl, hn⟩
      | heading k2 l2 =>
        rw [outerScan_cons_heading ck i rest hd]
        by_cases hk2 : k2 ∈ ck
        · rw [if_pos hk2]
          simp only [List.mem_cons, ih (i + 1)]
          constructor
          · rintro (rfl | ⟨hk, c, hc, lvl, hn⟩)
            · exact ⟨hk2, d, Or.inl rfl, l2, hd⟩
            · exact ⟨hk, c, Or.inr hc, lvl, hn⟩
          · rintro ⟨hk, c, rfl | hc, lvl, hn⟩
            · rw [hd] at hn
              cases hn
              exact Or.inl rfl
            · exact Or.inr ⟨hk, c, hc, lvl, hn⟩
        · rw [if_neg hk2, ih (i + 1)]
          simp only [List.mem_cons]
          constructor
          · rintro ⟨hk, c, hc, lvl, hn⟩; exact ⟨hk, c, Or.inr hc, lvl, hn⟩
          · rintro ⟨hk, c, rfl | hc, lvl, hn⟩
            · rw [hd] at hn
              cases hn
              exact absurd hk hk2
            · exact ⟨hk, c, hc, lvl, hn⟩

/-- C4: The heading re-apply pass is idempotent: a second run on the pass's
own output (the updated children and the pruned collapsed set) returns
exactly the same children — hence the same hidden-element set and the same
recorded original display values — and the same pruned set. -/
theorem reapply_idempotent (ch : List DomChild) (ck : Finset String) :
    reapplyAllCollapses (reapplyAllCollapses ch ck).1 (reapplyAllCollapses ch ck).2 =
      reapplyAllCollapses ch ck := by
  have hres : tryRestoreElements ((reapplyAllCollapses ch ck).1) = tryRestoreElements ch :=
    tryRestore_reapply ch ck
  have hscan : outerScan (reapplyAllCollapses ch ck).2 0 (tryRestoreElements ch) =
      outerScan ck 0 (tryRestoreElements ch) := by
    apply outerScan_congr
    intro c hc k lvl hn
    rw [reapply_snd_def, Finset.mem_filter]
    constructor
    · rintro ⟨h1, _⟩; exact h1
    · intro hk; exact ⟨hk, mem_valid_of_heading 0 _ c hc hn hk⟩
  apply Prod.ext
  · rw [reapply_fst ((reapplyAllCollapses ch ck).1) ((reapplyAllCollapses ch ck).2),
      hres, hscan]
    exact (reapply_fst ch ck).symm
  · rw [reapply_snd_def ((reapplyAllCollapses ch ck).1) ((reapplyAllCollapses ch ck).2)]
    simp only [hres, hscan]
    ext k
    simp only [Finset.mem_filter]
    constructor
    · rintro ⟨h1, _⟩; exact h1
    · intro hk
      refine ⟨hk, ?_⟩
      rw [reapply_snd_def] at hk
      exact (Finset.mem_filter.mp hk).2

/-- C9: The hide/show DOM mutation is fully reversible: `hideElement`
records the original inline display value in the marker exactly once (hiding
an already-hidden element keeps the recorded value), restoring a hidden
marker-free element returns it exactly (display value restored, marker
removed), and running the teardown restore pass on the output of a re-apply
pass gives the same result as restoring the original children — no element
hidden by the pass can leak past a restore. -/
theorem hide_restore_reversible (c : DomChild) (children : List DomChild)
    (ck : Finset String) :
    (hideElement c).origDisplay = some (c.origDisplay.getD c.display) ∧
    (hideElement (hideElement c)).origDisplay = (hideElement c).origDisplay ∧
    (restoreChild c).origDisplay = none ∧
    restoreChild (hideElement (restoreChild c)) = restoreChild c ∧
    tryRestoreElements ((reapplyAllCollapses children ck).1) =
      tryRestoreElements children :=
  ⟨rfl, rfl, restoreChild_origDisplay c,
   restore_hide (restoreChild_origDisplay c), tryRestore_reapply children ck⟩

/-! ## Pruning: in-memory cache versus persisted record -/

lemma isHeadingWithKey_iff {k : String} {c : DomChild} :
    isHeadingWithKey k c = true ↔ ∃ lvl, c.node = some (NodeInfo.heading k lvl) := by
  obtain ⟨n, d, o⟩ := c
  cases n with
  | none => simp [isHeadingWithKey]
  | some ni =>
    cases ni with
    | heading key lvl =>
      simp only [isHeadingWithKey, beq_iff_eq, Option.some.injEq, NodeInfo.heading.injEq]
      constructor
      · rintro rfl; exact ⟨lvl, rfl, rfl⟩
      · rintro ⟨l2, rfl, rfl⟩; rfl
    | other key => simp [isHeadingWithKey]

lemma isHeadingKeyIn_iff {ch : List DomChild} {k : String} :
    isHeadingKeyIn ch k = true ↔
      ∃ c ∈ ch, ∃ lvl, c.node = some (NodeInfo.heading k lvl) := by
  unfold isHeadingKeyIn
  rw [List.any_eq_true]
  constructor
  · rintro ⟨c, hc, hp⟩; exact ⟨c, hc, isHeadingWithKey_iff.mp hp⟩
  · rintro ⟨c, hc, lvl, hn⟩; exact ⟨c, hc, isHeadingWithKey_iff.mpr ⟨lvl, hn⟩⟩

lemma exists_heading_restore {ch : List DomChild} {k : String} :
    (∃ c ∈ tryRestoreElements ch, ∃ lvl, c.node = some (NodeInfo.heading k lvl)) ↔
      ∃ c ∈ ch, ∃ lvl, c.node = some (NodeInfo.heading k lvl) := by
  constructor
  · rintro ⟨c, hc, lvl, hn⟩
    simp only [tryRestoreElements, List.mem_map] at hc
    obtain ⟨x, hx, rfl⟩ := hc
    exact ⟨x, hx, lvl, by rw [← restoreChild_node]; exact hn⟩
  · rintro ⟨c, hc, lvl, hn⟩
    refine ⟨restoreChild c, ?_, lvl, by rw [restoreChild_node]; exact hn⟩
    simp only [tryRestoreElements, List.mem_map]
    exact ⟨c, hc, rfl⟩

/-- C1 (amended): The re-apply pass prunes the in-memory collapsed-key
set it is given: the set it produces is exactly the input set restricted to
identifiers that are currently keys of top-level heading children, so every
dangling identifier is removed from that in-memory set.  The persisted
Collapsed-State Record, however, is not modified by the pass (the
update-listener step leaves the record's key set unchanged), so the
persisted record can retain dangling references. -/
theorem reapply_prunes_cache_not_record (ch : List DomChild) (ck : Finset String)
    (st : PluginState) :
    (reapplyAllCollapses ch ck).2 = ck.filter (fun k => isHeadingKeyIn ch k = true) ∧
    (updateListenerStep st).stateNode = st.stateNode := by
  refine ⟨?_, rfl⟩
  ext k
  rw [reapply_snd_def]
  simp only [Finset.mem_filter]
  rw [mem_valid_iff 0, isHeadingKeyIn_iff, exists_heading_restore]
  tauto

/-- C1 counterexample: a persisted record holding `"k1"` over a document
whose only child is a paragraph.  After the update-listener runs the
re-apply pass, the in-memory cache has been pruned to `∅`, but the persisted
Collapsed-State Record still holds the dangling identifier `"k1"`, which is
not the key of any top-level heading — contradicting "the persisted
Collapsed-State Record never retains a dangling reference after a re-apply
pass". -/
theorem record_retains_dangling_key_cex :
    (updateListenerStep c1State).stateNode = some ({"k1"} : Finset String) ∧
    (updateListenerStep c1State).cache = (∅ : Finset String) ∧
    isHeadingKeyIn (updateListenerStep c1State).children ("k1") = false := by
  decide

/-! ## Toggling twice -/

lemma toggleKey_involutive (s : Finset String) (k : String) :
    toggleKey (toggleKey s k) k = s := by
  unfold toggleKey
  by_cases h : k ∈ s
  · rw [if_pos h, if_neg (Finset.not_mem_erase k s), Finset.insert_erase h]
  · rw [if_neg h, if_pos (Finset.mem_insert_self k s), Finset.erase_insert h]

/-- C5: Toggling the same heading key twice through the toggle-collapse
command, with no intervening document change, returns the persisted
collapsed-key set to its pre-toggle contents; and provided the starting
children were already in re-applied form (as they are after any pass), the
visible/hidden state of all top-level elements is also returned to the
pre-toggle configuration. -/
theorem toggle_twice_roundtrip (st : PluginState) (key : String)
    (hsteady : st.children =
      (reapplyAllCollapses st.children (getKeysOrEmpty st.stateNode)).1) :
    getKeysOrEmpty (toggleCommandStep (toggleCommandStep st key) key).stateNode =
      getKeysOrEmpty st.stateNode ∧
    (toggleCommandStep (toggleCommandStep st key) key).children = st.children := by
  constructor
  · show toggleKey (toggleKey (getKeysOrEmpty st.stateNode) key) key =
      getKeysOrEmpty st.stateNode
    exact toggleKey_involutive _ _
  · show (reapplyAllCollapses (toggleCommandStep st key).children
      (toggleKey (toggleKey (getKeysOrEmpty st.stateNode) key) key)).1 = st.children
    rw [toggleKey_involutive]
    have h1c : (toggleCommandStep st key).children =
        (reapplyAllCollapses st.children
          (toggleKey (getKeysOrEmpty st.stateNode) key)).1 := rfl
    rw [reapply_fst ((toggleCommandStep st key).children) (getKeysOrEmpty st.stateNode)]
    rw [h1c, tryRestore_reapply]
    rw [← reapply_fst st.children (getKeysOrEmpty st.stateNode)]
    exact hsteady.symm

/-- Witness for C5 at a concrete steady state: an empty record over a
heading plus a paragraph, toggled twice on the heading's key. -/
theorem toggle_twice_roundtrip_witness :
    getKeysOrEmpty (toggleCommandStep (toggleCommandStep c5State ("h1")) ("h1")).stateNode =
      getKeysOrEmpty c5State.stateNode ∧
    (toggleCommandStep (toggleCommandStep c5State ("h1")) ("h1")).children =
      c5State.children :=
  toggle_twice_roundtrip c5State ("h1") (by decide)

/-! ## The section body of a collapsed heading -/

lemma mem_hideRunAux (level : Nat) :
    ∀ (j j' : Nat) (l : List DomChild),
      j' ∈ hideRunAux level j l ↔ j ≤ j' ∧ j' < j + sectionRunLen level l := by
  intro j j' l
  induction l generalizing j with
  | nil =>
    simp only [hideRunAux, List.not_mem_nil, false_iff, sectionRunLen,
      List.takeWhile_nil, List.length_nil]
    omega
  | cons c rest ih =>
    by_cases hb : isBoundary level c
    · simp only [hideRunAux, hb, if_true, List.not_mem_nil, false_iff, sectionRunLen,
        List.takeWhile_cons, Bool.not_eq_true', hb, Bool.not_true, Bool.false_eq_true,
        if_false, List.length_nil]
      omega
    · have hlen : sectionRunLen level (c :: rest) = sectionRunLen level rest + 1 := by
        simp [sectionRunLen, List.takeWhile_cons, hb]
      rw [hlen]
      simp only [hideRunAux, hb, if_false, Bool.false_eq_true, List.mem_cons, ih (j + 1)]
      omega

lemma sectionRunLen_not_boundary {level : Nat} :
    ∀ (l : List DomChild) (m : Nat), m < sectionRunLen level l →
      ∀ c, l[m]? = some c → isBoundary level c = false := by
  intro l
  induction l with
  | nil =>
    intro m hm
    simp [sectionRunLen] at hm
  | cons d rest ih =>
    intro m hm c hc
    by_cases hb : isBoundary level d
    · simp [sectionRunLen, List.takeWhile_cons, hb] at hm
    · cases m with
      | zero =>
        simp only [List.getElem?_cons_zero, Option.some.injEq] at hc
        rw [← hc]
        exact Bool.not_eq_true _ ▸ hb
      | succ m2 =>
        have hm2 : m2 < sectionRunLen level rest := by
          have : sectionRunLen level (d :: rest) = sectionRunLen level rest + 1 := by
            simp [sectionRunLen, List.takeWhile_cons, hb]
          omega
        exact ih m2 hm2 c (by simpa using hc)

lemma sectionRunLen_boundary {level : Nat} :
    ∀ (l : List DomChild) (c : DomChild),
      l[sectionRunLen level l]? = some c → isBoundary level c = true := by
  intro l
  induction l with
  | nil => intro c hc; simp at hc
  | cons d rest ih =>
    intro c hc
    by_cases hb : isBoundary level d
    · have h0 : sectionRunLen level (d :: rest) = 0 := by
        simp [sectionRunLen, List.takeWhile_cons, hb]
      rw [h0] at hc
      simp only [List.getElem?_cons_zero, Option.some.injEq] at hc
      rw [← hc]
      exact hb
    · have h1 : sectionRunLen level (d :: rest) = sectionRunLen level rest + 1 := by
        simp [sectionRunLen, List.takeWhile_cons, hb]
      rw [h1] at hc
      exact ih c (by simpa using hc)

lemma sectionRunLen_le (level : Nat) (l : List DomChild) :
    sectionRunLen level l ≤ l.length := by
  induction l with
  | nil => simp [sectionRunLen]
  | cons d rest ih =>
    by_cases hb : isBoundary level d
    · simp [sectionRunLen, List.takeWhile_cons, hb]
    · have h1 : sectionRunLen level (d :: rest) = sectionRunLen level rest + 1 := by
        simp [sectionRunLen, List.takeWhile_cons, hb]
      simp only [h1, List.length_cons]
      omega

lemma isBoundary_restore (level : Nat) (c : DomChild) :
    isBoundary level (restoreChild c) = isBoundary level c := by
  unfold isBoundary
  rw [restoreChild_node]

lemma hideRunAux_restore (level : Nat) :
    ∀ (j : Nat) (l : List DomChild),
      hideRunAux level j (tryRestoreElements l) = hideRunAux level j l := by
  intro j l
  induction l generalizing j with
  | nil => rfl
  | cons c rest ih =>
    show hideRunAux level j (restoreChild c :: tryRestoreElements rest) = _
    simp only [hideRunAux, isBoundary_restore, ih (j + 1)]

lemma sectionRunLen_restore (level : Nat) (l : List DomChild) :
    sectionRunLen level (tryRestoreElements l) = sectionRunLen level l := by
  induction l with
  | nil => rfl
  | cons c rest ih =>
    show sectionRunLen level (restoreChild c :: tryRestoreElements rest) = _
    by_cases hb : isBoundary level c
    · simp [sectionRunLen, List.takeWhile_cons, isBoundary_restore, hb]
    · simp only [sectionRunLen, List.takeWhile_cons, isBoundary_restore, hb] at ih ⊢
      simp [hb, ih]

lemma tryRestoreElements_drop (l : List DomChild) (n : Nat) :
    (tryRestoreElements l).drop n = tryRestoreElements (l.drop n) :=
  (List.map_drop ..).symm

lemma outerScan_fst_mono {ck : Finset String} (i : Nat) (d : DomChild)
    (l : List DomChild) (j : Nat) (hj : j ∈ (outerScan ck (i + 1) l).1) :
    j ∈ (outerScan ck i (d :: l)).1 := by
  cases hd : d.node with
  | none => rw [outerScan_cons_none ck i l hd]; exact hj
  | some ni =>
    cases ni with
    | other _ => rw [outerScan_cons_other ck i l hd]; exact hj
    | heading k lvl =>
      rw [outerScan_cons_heading ck i l hd]
      by_cases hk : k ∈ ck
      · rw [if_pos hk]
        exact List.mem_append_right _ hj
      · rw [if_neg hk]
        exact hj

lemma hideRun_subset_outerScan {ck : Finset String} {key : String} {level : Nat} :
    ∀ (l : List DomChild) (n i : Nat) (c : DomChild) (rest : List DomChild),
      l.drop n = c :: rest → c.node = some (NodeInfo.heading key level) → key ∈ ck →
      ∀ j ∈ hideRunAux level (i + n + 1) rest, j ∈ (outerScan ck i l).1 := by
  intro l
  induction l with
  | nil =>
    intro n i c rest hd
    simp at hd
  | cons d l2 ih =>
    intro n i c rest hd hn hk j hj
    cases n with
    | zero =>
      simp only [List.drop_zero, List.cons.injEq] at hd
      obtain ⟨h1, h2⟩ := hd
      rw [h1, h2]
      rw [outerScan_cons_heading ck i rest hn, if_pos hk]
      refine List.mem_append_left _ ?_
      have : i + 0 + 1 = i + 1 := by omega
      rw [this] at hj
      exact hj
    | succ n2 =>
      have hd2 : l2.drop n2 = c :: rest := by simpa using hd
      have heq : i + (n2 + 1) + 1 = (i + 1) + n2 + 1 := by omega
      rw [heq] at hj
      exact outerScan_fst_mono i d l2 j (ih n2 (i + 1) c rest hd2 hn hk j hj)

lemma applyHides_getElem? (th : List Nat) :
    ∀ (n : Nat) (l : List DomChild) (m : Nat),
      (applyHides th n l)[m]? =
        (l[m]?).map (fun x => if n + m ∈ th then hideElement x else x) := by
  intro n l
  induction l generalizing n with
  | nil => intro m; simp [applyHides]
  | cons c rest ih =>
    intro m
    cases m with
    | zero => simp [applyHides]
    | succ m2 =>
      show ((if n ∈ th then hideElement c else c) ::
        applyHides th (n + 1) rest)[m2 + 1]? = _
      rw [List.getElem?_cons_succ, ih (n + 1) m2]
      have : n + (m2 + 1) = n + 1 + m2 := by omega
      simp [this]

/-- C3: When the re-apply pass encounters a top-level heading of level
`level` at index `i` whose key is in the collapsed set, the run of siblings
hidden on its behalf is exactly the indices strictly between `i` and
`sectionEnd` — where `sectionEnd` is the index of the first later sibling
that is a heading of level `≤ level` (every index strictly inside the run
fails the boundary test, and the sibling at `sectionEnd`, when it exists,
satisfies it) — and every child of the run is actually hidden (display
`"none"`) in the output of the pass, regardless of nested sub-headings of
greater level inside the run. -/
theorem collapsed_heading_hides_section (children : List DomChild) (ck : Finset String)
    (i level : Nat) (key : String) (c : DomChild)
    (hc : children[i]? = some c) (hn : c.node = some (NodeInfo.heading key level))
    (hk : key ∈ ck) :
    (∀ j, j ∈ hideRun children i level ↔ i < j ∧ j < sectionEnd children i level) ∧
    sectionEnd children i level ≤ children.length ∧
    (∀ j c', i < j → j < sectionEnd children i level → children[j]? = some c' →
      isBoundary level c' = false) ∧
    (∀ c', children[sectionEnd children i level]? = some c' →
      isBoundary level c' = true) ∧
    (∀ j c', i < j → j < sectionEnd children i level →
      ((reapplyAllCollapses children ck).1)[j]? = some c' → c'.display = "none") := by
  have hilen : i < children.length := by
    by_contra hge
    rw [List.getElem?_eq_none (by omega)] at hc
    cases hc
  refine ⟨?_, ?_, ?_, ?_, ?_⟩
  · intro j
    unfold hideRun sectionEnd
    rw [mem_hideRunAux level (i + 1) j]
    omega
  · unfold sectionEnd
    have h1 := sectionRunLen_le level (children.drop (i + 1))
    rw [List.length_drop] at h1
    omega
  · intro j c' hij hjend hjc
    unfold sectionEnd at hjend
    have hm : j - (i + 1) < sectionRunLen level (children.drop (i + 1)) := by omega
    have hdrop : (children.drop (i + 1))[j - (i + 1)]? = some c' := by
      rw [List.getElem?_drop]
      have : i + 1 + (j - (i + 1)) = j := by omega
      rw [this]
      exact hjc
    exact sectionRunLen_not_boundary (children.drop (i + 1)) (j - (i + 1)) hm c' hdrop
  · intro c' hc'
    unfold sectionEnd at hc'
    have hdrop : (children.drop (i + 1))[sectionRunLen level (children.drop (i + 1))]? =
        some c' := by
      rw [List.getElem?_drop]
      exact hc'
    exact sectionRunLen_boundary (children.drop (i + 1)) c' hdrop
  · intro j c' hij hjend hjc
    -- membership of j in the global toHide list of the scan over the restored children
    have hdropi : children.drop i = c :: children.drop (i + 1) := by
      have hgi : children[i] = c := by
        have := List.getElem?_eq_getElem hilen (l := children)
        rw [hc] at this
        exact (Option.some.inj this).symm
      rw [List.drop_eq_getElem_cons hilen, hgi]
    have hdropr : (tryRestoreElements children).drop i =
        restoreChild c :: tryRestoreElements (children.drop (i + 1)) := by
      rw [tryRestoreElements_drop, hdropi]
      rfl
    have hmem : j ∈ hideRunAux level (0 + i + 1)
        (tryRestoreElements (children.drop (i + 1))) := by
      rw [hideRunAux_restore]
      have h0 : 0 + i + 1 = i + 1 := by omega
      rw [h0]
      unfold sectionEnd at hjend
      exact (mem_hideRunAux level (i + 1) j (children.drop (i + 1))).mpr
        ⟨by omega, by omega⟩
    have hscanmem : j ∈ (outerScan ck 0 (tryRestoreElements children)).1 :=
      hideRun_subset_outerScan (tryRestoreElements children) i 0 (restoreChild c)
        (tryRestoreElements (children.drop (i + 1))) hdropr
        (by rw [restoreChild_node]; exact hn) hk j hmem
    rw [reapply_fst] at hjc
    rw [applyHides_getElem?] at hjc
    have hjlen : j < (tryRestoreElements children).length := by
      unfold sectionEnd at hjend
      have h1 := sectionRunLen_le level (children.drop (i + 1))
      rw [List.length_drop] at h1
      simp only [tryRestoreElements, List.length_map]
      omega
    obtain ⟨x, hx⟩ : ∃ x, (tryRestoreElements children)[j]? = some x :=
      ⟨_, List.getElem?_eq_getElem hjlen⟩
    rw [hx] at hjc
    simp only [Option.map_some', Option.some.injEq] at hjc
    have h0j : 0 + j = j := by omega
    rw [h0j] at hjc
    rw [if_pos hscanmem] at hjc
    rw [← hjc]
    rfl

/-- Witness for C3: children `h2#A, p#B, h3#C, p#D, h2#E` with `A` collapsed.
The section body of `A` is indices 1–3 (including the nested `h3#C`), and
index 2 — the nested sub-heading — is hidden by the pass. -/
theorem collapsed_heading_hides_section_witness :
    2 ∈ hideRun c3Children 0 2 ∧
    ((((reapplyAllCollapses c3Children ({"A"} : Finset String)).1)[2]?).map
      DomChild.display) = some ("none") := by
  constructor
  · exact ((collapsed_heading_hides_section c3Children {"A"} 0 2 ("A")
      ⟨some (NodeInfo.heading ("A") 2), "", none⟩ rfl rfl (by decide)).1 2).mpr (by decide)
  · decide

/-! ## The singleton Collapsed-State Record -/

lemma countRecords_cons (c : RootNode) (doc : List RootNode) :
    countRecords (c :: doc) = (if isRecord c then 1 else 0) + countRecords doc := by
  unfold countRecords
  by_cases h : isRecord c
  · simp [List.filter_cons, h]
    omega
  · simp [List.filter_cons, h]

lemma countRecords_toggle (doc : List RootNode) (k : String) :
    countRecords (toggleRecordCommand doc k) = max 1 (countRecords doc) := by
  induction doc with
  | nil => rfl
  | cons c rest ih =>
    cases c with
    | record ks =>
      rw [show toggleRecordCommand (RootNode.record ks :: rest) k =
        RootNode.record (toggleKey ks k) :: rest from rfl]
      rw [countRecords_cons, countRecords_cons]
      simp only [isRecord, if_true]
      omega
    | other n =>
      rw [show toggleRecordCommand (RootNode.other n :: rest) k =
        RootNode.other n :: toggleRecordCommand rest k from rfl]
      rw [countRecords_cons, countRecords_cons, ih]
      simp only [isRecord, Bool.false_eq_true, if_false]
      omega

lemma countRecords_runToggles (doc : List RootNode) (keys : List String) :
    countRecords (runToggles doc keys) =
      if keys.isEmpty then countRecords doc else max 1 (countRecords doc) := by
  induction keys generalizing doc with
  | nil => rfl
  | cons k ks ih =>
    show countRecords (runToggles (toggleRecordCommand doc k) ks) = _
    rw [ih (toggleRecordCommand doc k), countRecords_toggle]
    cases ks with
    | nil => simp
    | cons k2 ks2 =>
      simp only [List.isEmpty_cons, if_false, Bool.false_eq_true]
      omega

/-- C6: Starting from a document with no Collapsed-State Record, any
sequence of toggle-collapse commands leaves at most one record among the
root's children; and after at least one toggle exactly one record exists —
the first toggle lazily creates it and every later toggle mutates the
existing one. -/
theorem at_most_one_record (doc : List RootNode) (keys : List String)
    (h : countRecords doc = 0) :
    countRecords (runToggles doc keys) ≤ 1 ∧
    (keys ≠ [] → countRecords (runToggles doc keys) = 1) := by
  rw [countRecords_runToggles, h]
  cases keys with
  | nil => simp
  | cons k ks => simp

/-- Witness for C6: one non-record child, two toggles. -/
theorem at_most_one_record_witness :
    countRecords (runToggles [RootNode.other 0] ["a", "b"]) ≤ 1 ∧
    countRecords (runToggles [RootNode.other 0] ["a", "b"]) = 1 :=
  ⟨(at_most_one_record [RootNode.other 0] ["a", "b"] (by decide)).1,
   (at_most_one_record [RootNode.other 0] ["a", "b"] (by decide)).2 (by decide)⟩

/-! ## Bubble-menu suppression -/

/-- C7: A collapsed (caret-only) selection, an absent selection, or any
state while an IME composition is active never yields a visible bubble
toolbar: the toolbar-state sync clears the selection rectangle, and the
menu's open condition is false. -/
theorem toolbar_suppressed (inp : SyncInput)
    (h : inp.isComposing = true ∨ inp.selection = none ∨
      ∃ s, inp.selection = some s ∧ s.isCollapsed = true) :
    syncToolbarState inp = none ∧ openAfterSync inp = false := by
  have hs : syncToolbarState inp = none := by
    by_cases hc : inp.isComposing
    · simp [syncToolbarState, hc]
    · rcases h with hcomp | hnone | ⟨s, hsel, hcoll⟩
      · exact absurd hcomp (by simpa using hc)
      · simp [syncToolbarState, hc, hnone]
      · simp [syncToolbarState, hc, hsel, hcoll]
  refine ⟨hs, ?_⟩
  unfold openAfterSync shouldShowAfterSync selectionRectAfterSync
  rw [hs]
  rfl

/-- Witness for C7: a collapsed range selection with a nonzero platform
rectangle, outside composition. -/
theorem toolbar_suppressed_witness :
    syncToolbarState ⟨false, some ⟨true, true, some ⟨3, 4⟩⟩⟩ = none ∧
    openAfterSync ⟨false, some ⟨true, true, some ⟨3, 4⟩⟩⟩ = false :=
  toolbar_suppressed ⟨false, some ⟨true, true, some ⟨3, 4⟩⟩⟩
    (Or.inr (Or.inr ⟨⟨true, true, some ⟨3, 4⟩⟩, rfl, rfl⟩))

/-! ## Freshness of `getKeys` -/

/-- C10: `CollapsedStateNode.getKeys` returns a fresh copy of the node's
key set: the fresh cell holds the same contents as the `__keys` cell but
lives at a different address, and writing any set whatsoever to the returned
cell — as the re-apply pass's pruning of the cached set does — leaves the
contents of the node's `__keys` cell unchanged. -/
theorem getKeys_returns_fresh_copy (h : SetHeap) (a : Nat) (s : Finset String)
    (ha : a < h.cells.length) :
    readCell (getKeys h a).1 (getKeys h a).2 = readCell h a ∧
    (getKeys h a).2 ≠ a ∧
    readCell (writeCell (getKeys h a).1 (getKeys h a).2 s) a = readCell h a := by
  refine ⟨?_, ?_, ?_⟩
  · show readCell ⟨h.cells ++ [readCell h a]⟩ h.cells.length = readCell h a
    unfold readCell
    rw [List.getElem?_concat_length]
    rfl
  · show h.cells.length ≠ a
    omega
  · show readCell ⟨(h.cells ++ [readCell h a]).set h.cells.length s⟩ a = readCell h a
    unfold readCell
    rw [List.getElem?_set_ne (by omega), List.getElem?_append_left ha]

/-- Witness for C10: a heap with one `__keys` cell holding `{"k1"}`. -/
theorem getKeys_returns_fresh_copy_witness :
    readCell (getKeys ⟨[{"k1"}]⟩ 0).1 (getKeys ⟨[{"k1"}]⟩ 0).2 =
      readCell ⟨[{"k1"}]⟩ 0 ∧
    (getKeys ⟨[{"k1"}]⟩ 0).2 ≠ 0 ∧
    readCell (writeCell (getKeys ⟨[{"k1"}]⟩ 0).1 (getKeys ⟨[{"k1"}]⟩ 0).2 ∅) 0 =
      readCell ⟨[{"k1"}]⟩ 0 :=
  getKeys_returns_fresh_copy ⟨[{"k1"}]⟩ 0 ∅ (by decide)


/-! ## The document forest: keys, containment, uniqueness -/

mutual
theorem containsKey_iff_allKeys : ∀ (b : DocNode) (q : String),
    containsKey b q = true ↔ q ∈ allKeys b
  | DocNode.text k _, q => by
    simp only [containsKey, allKeys, beq_iff_eq, List.mem_singleton]
    exact ⟨fun h => h.symm, fun h => h.symm⟩
  | DocNode.elem k _ cs, q => by
    simp only [containsKey, allKeys, Bool.or_eq_true, beq_iff_eq, List.mem_cons]
    rw [containsKeyList_iff_allKeysList cs q]
    constructor
    · rintro (h | h)
      · exact Or.inl h.symm
      · exact Or.inr h
    · rintro (h | h)
      · exact Or.inl h.symm
      · exact Or.inr h

theorem containsKeyList_iff_allKeysList : ∀ (l : List DocNode) (q : String),
    containsKeyList l q = true ↔ q ∈ allKeysList l
  | [], q => by simp [containsKeyList, allKeysList]
  | c :: cs, q => by
    simp only [containsKeyList, allKeysList, Bool.or_eq_true, List.mem_append]
    rw [containsKey_iff_allKeys c q, containsKeyList_iff_allKeysList cs q]
end

lemma containsKeyList_exists (l : List DocNode) (q : String) :
    containsKeyList l q = true ↔ ∃ b ∈ l, containsKey b q = true := by
  induction l with
  | nil => simp [containsKeyList]
  | cons c cs ih =>
    simp only [containsKeyList, Bool.or_eq_true, ih, List.mem_cons]
    constructor
    · rintro (h | ⟨b, hb, hc⟩)
      · exact ⟨c, Or.inl rfl, h⟩
      · exact ⟨b, Or.inr hb, hc⟩
    · rintro ⟨b, rfl | hb, hc⟩
      · exact Or.inl hc
      · exact Or.inr ⟨b, hb, hc⟩

lemma allKeys_head : ∀ (b : DocNode), ∃ t, allKeys b = nodeKey b :: t
  | DocNode.text _ _ => ⟨[], rfl⟩
  | DocNode.elem _ _ cs => ⟨allKeysList cs, rfl⟩

lemma nodeKey_mem_allKeys (b : DocNode) : nodeKey b ∈ allKeys b := by
  obtain ⟨t, ht⟩ := allKeys_head b
  rw [ht]
  exact List.mem_cons_self _ _

lemma mem_allKeysList_of_mem : ∀ (l : List DocNode) (b : DocNode), b ∈ l →
    ∀ q ∈ allKeys b, q ∈ allKeysList l := by
  intro l
  induction l with
  | nil => intro b hb; cases hb
  | cons c cs ih =>
    intro b hb q hq
    show q ∈ allKeys c ++ allKeysList cs
    rcases List.mem_cons.mp hb with rfl | hb2
    · exact List.mem_append_left _ hq
    · exact List.mem_append_right _ (ih b hb2 q hq)

lemma nodeKeys_nodup : ∀ (l : List DocNode), (allKeysList l).Nodup →
    (l.map nodeKey).Nodup := by
  intro l
  induction l with
  | nil => intro _; simp
  | cons c cs ih =>
    intro h
    have h2 : (allKeys c ++ allKeysList cs).Nodup := h
    rw [List.nodup_append] at h2
    obtain ⟨h1, hcs, hdisj⟩ := h2
    rw [List.map_cons, List.nodup_cons]
    refine ⟨?_, ih hcs⟩
    intro hmem
    rw [List.mem_map] at hmem
    obtain ⟨b, hb, hbk⟩ := hmem
    have hb2 : nodeKey b ∈ allKeysList cs :=
      mem_allKeysList_of_mem cs b hb _ (nodeKey_mem_allKeys b)
    rw [hbk] at hb2
    exact hdisj (nodeKey_mem_allKeys c) hb2

lemma topLevelOf_unique : ∀ (doc : List DocNode), (allKeysList doc).Nodup →
    ∀ (b : DocNode) (q : String), b ∈ doc → containsKey b q = true →
      topLevelOf doc q = some b := by
  intro doc
  induction doc with
  | nil => intro _ b q hb; cases hb
  | cons d rest ih =>
    intro hnd b q hb hq
    have h2 : (allKeys d ++ allKeysList rest).Nodup := hnd
    rw [List.nodup_append] at h2
    obtain ⟨-, hndr, hdisj⟩ := h2
    rcases List.mem_cons.mp hb with rfl | hb2
    · show List.find? (fun x => containsKey x q) (b :: rest) = some b
      exact List.find?_cons_of_pos _ hq
    · have hdq : containsKey d q = false := by
        by_contra hcd
        rw [Bool.not_eq_false] at hcd
        have hqd : q ∈ allKeys d := (containsKey_iff_allKeys d q).mp hcd
        have hqb : q ∈ allKeysList rest :=
          mem_allKeysList_of_mem rest b hb2 q ((containsKey_iff_allKeys b q).mp hq)
        exact hdisj hqd hqb
      unfold topLevelOf
      rw [List.find?_cons_of_neg _ (by simp [hdq])]
      exact ih hndr b q hb2 hq

lemma resolveTops_mem : ∀ (doc : List DocNode) (sel : List String) (tops : List String),
    resolveTops doc sel = some tops →
    ∀ k, k ∈ tops ↔ ∃ q ∈ sel, ∃ b, topLevelOf doc q = some b ∧ nodeKey b = k := by
  intro doc sel
  induction sel with
  | nil =>
    intro tops h k
    simp only [resolveTops, Option.some.injEq] at h
    subst h
    simp
  | cons q qs ih =>
    intro tops h k
    cases hq : topLevelOf doc q with
    | none =>
      simp only [resolveTops, hq] at h
      exact Option.noConfusion h
    | some b =>
      cases hr : resolveTops doc qs with
      | none =>
        simp only [resolveTops, hq, hr] at h
        exact Option.noConfusion h
      | some rest =>
        simp only [resolveTops, hq, hr, Option.some.injEq] at h
        subst h
        rw [List.mem_cons, ih rest hr k]
        constructor
        · rintro (rfl | ⟨q2, hq2, b2, hb2, rfl⟩)
          · exact ⟨q, List.mem_cons_self _ _, b, hq, rfl⟩
          · exact ⟨q2, List.mem_cons_of_mem _ hq2, b2, hb2, rfl⟩
        · rintro ⟨q2, hq2, b2, hb2, rfl⟩
          rcases List.mem_cons.mp hq2 with rfl | hq3
          · rw [hq] at hb2
            injection hb2 with hb3
            subst hb3
            exact Or.inl rfl
          · exact Or.inr ⟨q2, hq3, b2, hb2, rfl⟩

/-- C2 counterexample: the document is a single three-item list and the
selection spans the first two list items (text nodes `t1`, `t2` and items
`i1`, `i2`).  The top-level element of every selected node is the list node
`L` itself, so Delete removes the entire list: the result is `some []`, not
the list with only its third item left, as the claim's scenario demands. -/
theorem bubble_delete_spanning_list_items_cex :
    onDelete [exListDoc] ["t1", "i1", "t2", "i2"] ("t1") = some [] ∧
    some ([] : List DocNode) ≠
      some [DocNode.elem ("L") ("list")
        [DocNode.elem ("i3") ("listitem") [DocNode.text ("t3") ("gamma")]]] := by
  refine ⟨rfl, ?_⟩
  intro h
  exact List.noConfusion (Option.some.inj h)

/-- C2 (amended): The bubble-menu Delete always removes whole top-level
nodes: whenever every selected node resolves to a top-level element (and at
least one does), a top-level node survives the deletion exactly when its
subtree contains none of the selected nodes.  In particular a selection
inside a single block removes that whole block rather than the selected
text, and a selection spanning list items removes the entire list (the
top-level node covering the items), deduplicated by identifier. -/
theorem bubble_delete_removes_covered_blocks (doc : List DocNode) (sel : List String)
    (anchorKey : String) (tops : List String) (doc2 : List DocNode) (b : DocNode)
    (hres : resolveTops doc sel = some tops) (hne : tops ≠ [])
    (hnodup : (allKeysList doc).Nodup)
    (hdel : onDelete doc sel anchorKey = some doc2) (hb : b ∈ doc) :
    b ∈ doc2 ↔ ∀ q ∈ sel, containsKey b q = false := by
  have htne : tops.isEmpty = false := by
    cases tops with
    | nil => exact absurd rfl hne
    | cons t ts => rfl
  have hdoc : doc.filter (fun x => !(tops.contains (nodeKey x))) = doc2 := by
    simp only [onDelete, hres, htne, Bool.false_eq_true, if_false] at hdel
    exact Option.some.inj hdel
  subst hdoc
  rw [List.mem_filter]
  constructor
  · rintro ⟨-, hok⟩ q hq
    by_contra hcontra
    have hck : containsKey b q = true := by
      cases hcb : containsKey b q
      · exact absurd hcb hcontra
      · rfl
    have hmem : nodeKey b ∈ tops :=
      (resolveTops_mem doc sel tops hres (nodeKey b)).mpr
        ⟨q, hq, b, topLevelOf_unique doc hnodup b q hb hck, rfl⟩
    simp [hmem] at hok
  · intro hall
    refine ⟨hb, ?_⟩
    have hnotin : nodeKey b ∉ tops := by
      intro hmem
      obtain ⟨q, hq, b2, hb2, hkey⟩ :=
        (resolveTops_mem doc sel tops hres (nodeKey b)).mp hmem
      have hb2f : List.find? (fun x => containsKey x q) doc = some b2 := hb2
      have hb2mem : b2 ∈ doc := List.mem_of_find?_eq_some hb2f
      have hb2c : containsKey b2 q = true := by
        have h0 := List.find?_some hb2f
        simpa using h0
      have hbb : b2 = b :=
        List.inj_on_of_nodup_map (nodeKeys_nodup doc hnodup) hb2mem hb hkey
      rw [hbb] at hb2c
      rw [hall q hq] at hb2c
      cases hb2c
    cases hct : tops.contains (nodeKey b)
    · rfl
    · exact absurd (List.elem_iff.mp hct) hnotin

/-- Witness for the amended C2: two paragraphs, selection covering only the
first paragraph's text node.  Delete removes the whole first paragraph; the
first paragraph does not survive. -/
theorem bubble_delete_removes_covered_blocks_witness :
    onDelete c2Doc ["t1"] ("t1") =
      some [DocNode.elem ("p2") ("paragraph") [DocNode.text ("t2") ("two")]] ∧
    (DocNode.elem ("p1") ("paragraph") [DocNode.text ("t1") ("one")]) ∉
      [DocNode.elem ("p2") ("paragraph") [DocNode.text ("t2") ("two")]] := by
  refine ⟨rfl, ?_⟩
  intro hmem
  have h := (bubble_delete_removes_covered_blocks c2Doc ["t1"] ("t1") ["p1"]
    [DocNode.elem ("p2") ("paragraph") [DocNode.text ("t2") ("two")]]
    (DocNode.elem ("p1") ("paragraph") [DocNode.text ("t1") ("one")])
    rfl (by intro h0; cases h0) (by decide) rfl
    (List.mem_cons_self _ _)).mp hmem
  have h1 := h ("t1") (List.mem_cons_self _ _)
  simp [containsKey, containsKeyList] at h1

/-! ## Node action activation -/

mutual
theorem findByKey_contains : ∀ (b : DocNode) (q : String) (n : DocNode),
    findByKey b q = some n → containsKey b q = true
  | DocNode.text k _, q, n => by
    intro h
    by_cases hk : (k == q) = true
    · simp [containsKey, hk]
    · simp only [findByKey, hk, Bool.false_eq_true, if_false] at h
      exact Option.noConfusion h
  | DocNode.elem k _ cs, q, n => by
    intro h
    by_cases hk : (k == q) = true
    · simp [containsKey, hk]
    · simp only [findByKey, hk, Bool.false_eq_true, if_false] at h
      simp only [containsKey, Bool.or_eq_true]
      exact Or.inr (findByKeyList_contains cs q n h)

theorem findByKeyList_contains : ∀ (l : List DocNode) (q : String) (n : DocNode),
    findByKeyList l q = some n → containsKeyList l q = true
  | [], q, n => by intro h; cases h
  | c :: cs, q, n => by
    intro h
    cases hc : findByKey c q with
    | some m =>
      simp only [containsKeyList, Bool.or_eq_true]
      exact Or.inl (findByKey_contains c q m hc)
    | none =>
      simp only [findByKeyList, hc] at h
      simp only [containsKeyList, Bool.or_eq_true]
      exact Or.inr (findByKeyList_contains cs q n h)
end

lemma selectNode_focused (doc : List DocNode) (key : String) :
    (selectNode doc key).focused = true := by
  cases hf : findByKeyList doc key with
  | none => simp [selectNode, hf]
  | some n =>
    cases ht : topLevelOf doc key with
    | none => simp [selectNode, hf, ht]
    | some top =>
      by_cases he : isElem top
      · cases hh : (allTextNodes top).head? <;> cases hl : (allTextNodes top).getLast? <;>
          simp [selectNode, hf, ht, he, hh, hl]
      · simp [selectNode, hf, ht, he]

/-- C8: Activating the node action button on a node that exists in the
document gives the editor focus, and: when the node's top-level element has
text descendants, the new selection is the text range from offset `0` of the
first text node to the content length of the last text node; when it has
none (or the top-level node is not an element), the new selection is a node
selection holding the top-level node itself. -/
theorem select_node_behavior (doc : List DocNode) (key : String) (n : DocNode)
    (hfind : findByKeyList doc key = some n) :
    (selectNode doc key).focused = true ∧
    ∃ top, topLevelOf doc key = some top ∧
      ((∃ s e, (allTextNodes top).head? = some s ∧
          (allTextNodes top).getLast? = some e ∧ isElem top = true ∧
          (selectNode doc key).outcome =
            some (SelectionOutcome.textRange s.1 0 e.1 e.2.length)) ∨
       ((isElem top = false ∨ allTextNodes top = []) ∧
          (selectNode doc key).outcome =
            some (SelectionOutcome.nodeSelection (nodeKey top)))) := by
  have hex : ∃ b ∈ doc, containsKey b key = true :=
    (containsKeyList_exists doc key).mp (findByKeyList_contains doc key n hfind)
  have htopS : (topLevelOf doc key).isSome := by
    unfold topLevelOf
    rw [List.find?_isSome]
    exact hex
  obtain ⟨top, htop⟩ := Option.isSome_iff_exists.mp htopS
  refine ⟨selectNode_focused doc key, top, htop, ?_⟩
  by_cases he : isElem top
  · cases hh : (allTextNodes top).head? with
    | none =>
      refine Or.inr ⟨Or.inr (List.head?_eq_none_iff.mp hh), ?_⟩
      have hl : (allTextNodes top).getLast? = none :=
        List.getLast?_eq_none_iff.mpr (List.head?_eq_none_iff.mp hh)
      simp [selectNode, hfind, htop, he, hh, hl]
    | some s =>
      cases hl : (allTextNodes top).getLast? with
      | none =>
        rw [List.getLast?_eq_none_iff.mp hl] at hh
        cases hh
      | some e =>
        refine Or.inl ⟨s, e, rfl, rfl, he, ?_⟩
        simp [selectNode, hfind, htop, he, hh, hl]
  · have he2 : isElem top = false := by
      cases hb : isElem top
      · rfl
      · exact absurd hb he
    refine Or.inr ⟨Or.inl he2, ?_⟩
    simp [selectNode, hfind, htop, he]

/-- Witness for C8: two paragraphs, activating on the first text node.  The
editor is focused and the paragraph's full text range (offsets 0 to 3 of
`t1`) is selected. -/
theorem select_node_behavior_witness :
    (selectNode c2Doc ("t1")).focused = true ∧
    (selectNode c2Doc ("t1")).outcome =
      some (SelectionOutcome.textRange ("t1") 0 ("t1") 3) :=
  ⟨(select_node_behavior c2Doc ("t1") (DocNode.text ("t1") ("one")) rfl).1, rfl⟩

end LexEd
